import Mathlib

/-!
Verification of the hjkl text-navigation engine.

The development shallowly embeds the engine's data model and operations:
buffers are lists of lines, a line is a list of characters, and every
fallible operation returns its success flag together with the position it
leaves behind (mirroring the Rust `&mut self` flow, where a failed step
leaves the position at whatever the call had written so far).  The one
operation that can abort (`step_line`, whose body contains an
`expect("Row should exist")`) returns an `Option`, with `none` standing
for the panic.

Rust's `String::len` is a byte count while `str::chars().nth` indexes by
character; the embedding keeps the two notions distinct (`byte_len`
versus `List.length`) exactly where the source uses them.
-/

/-- Direction for moving in the buffer (src/core/types.rs). -/
inductive Direction where
  | forward
  | backward
deriving DecidableEq

/-- Total, involutive direction reversal (src/core/types.rs). -/
def Direction.opposite : Direction → Direction
  | .forward => .backward
  | .backward => .forward

/-- A (row, column) cursor coordinate (src/core/position.rs). -/
structure Position where
  row : Nat
  col : Nat
deriving DecidableEq

/-- A text buffer: an ordered sequence of lines (src/domain/buffer.rs).
A line is kept as its list of characters; its UTF-8 byte length (what
Rust's `String::len` returns) is computed by `byte_len`. -/
structure Buffer where
  lines : List (List Char)
deriving DecidableEq

/-- UTF-8 byte length of a line, the value Rust's `String::len` yields. -/
def byte_len (l : List Char) : Nat :=
  (l.map Char.utf8Size).sum

/-- Number of rows in the buffer, including empty lines. -/
def Buffer.rows (b : Buffer) : Nat :=
  b.lines.length

/-- The line at the given row, or none if out of bounds. -/
def Buffer.get_line (b : Buffer) (row : Nat) : Option (List Char) :=
  b.lines[row]?

/-- Byte length of the line at the given row, 0 if out of bounds
(the source computes `map_or(0, |line| line.len())`, and Rust's
`String::len` counts bytes). -/
def Buffer.get_line_len (b : Buffer) (row : Nat) : Nat :=
  match b.get_line row with
  | some ln => byte_len ln
  | none => 0

/-- The character at a position, or none if out of bounds; the column is
a character index (the source uses `line.chars().nth(pos.col)`). -/
def Buffer.get_char (b : Buffer) (pos : Position) : Option Char :=
  match b.get_line pos.row with
  | some ln => ln[pos.col]?
  | none => none

/-- Rust's `char::is_whitespace`: membership in the Unicode White_Space
set, listed here in full. -/
def rust_is_whitespace (c : Char) : Bool :=
  c.toNat = 0x09 || c.toNat = 0x0A || c.toNat = 0x0B || c.toNat = 0x0C ||
  c.toNat = 0x0D || c.toNat = 0x20 || c.toNat = 0x85 || c.toNat = 0xA0 ||
  c.toNat = 0x1680 || c.toNat = 0x2000 || c.toNat = 0x2001 || c.toNat = 0x2002 ||
  c.toNat = 0x2003 || c.toNat = 0x2004 || c.toNat = 0x2005 || c.toNat = 0x2006 ||
  c.toNat = 0x2007 || c.toNat = 0x2008 || c.toNat = 0x2009 || c.toNat = 0x200A ||
  c.toNat = 0x2028 || c.toNat = 0x2029 || c.toNat = 0x202F || c.toNat = 0x205F ||
  c.toNat = 0x3000

/-- True iff the character at the position exists and is whitespace; an
out-of-range position (in particular an empty line) is not space. -/
def Buffer.is_space (b : Buffer) (pos : Position) : Bool :=
  match b.get_char pos with
  | some c => rust_is_whitespace c
  | none => false

/-- True iff the line at the position exists and has zero length. -/
def Buffer.is_empty_line (b : Buffer) (pos : Position) : Bool :=
  match b.get_line pos.row with
  | some ln => ln.isEmpty
  | none => false

/-- One character step with line wrap (src/core/position.rs
`Position::step_char`).  Returns the success flag together with the
resulting position; every failing path of the source leaves the position
untouched, which the pairs below mirror.  The column bounds compare
against the line's byte length, exactly as the source's `line.len()`. -/
def Position.step_char (p : Position) (b : Buffer) (d : Direction) : Bool × Position :=
  match b.get_line p.row with
  | some ln =>
    match d with
    | .forward =>
      if p.col + 1 < byte_len ln then (true, ⟨p.row, p.col + 1⟩)
      else if p.row + 1 < b.rows then (true, ⟨p.row + 1, 0⟩)
      else (false, p)
    | .backward =>
      if p.col > 0 then (true, ⟨p.row, p.col - 1⟩)
      else if p.row > 0 then
        match b.get_line (p.row - 1) with
        | some prev_ln => (true, ⟨p.row - 1, byte_len prev_ln - 1⟩)
        | none => (true, ⟨p.row - 1, 0⟩)
      else (false, p)
  | none => (false, p)

/-- One line step (src/core/position.rs `Position::step_line`), clamping
the column to `min(col, line_len - 1)`.  The source reads the destination
line with `.expect("Row should exist")`; the `none` results below model
that panic. -/
def Position.step_line (p : Position) (b : Buffer) (d : Direction) : Option (Bool × Position) :=
  match d with
  | .forward =>
    if p.row + 1 < b.rows then
      match b.get_line (p.row + 1) with
      | some next_ln => some (true, ⟨p.row + 1, min p.col (byte_len next_ln - 1)⟩)
      | none => none
    else some (false, p)
  | .backward =>
    if p.row > 0 then
      match b.get_line (p.row - 1) with
      | some prev_ln => some (true, ⟨p.row - 1, min p.col (byte_len prev_ln - 1)⟩)
      | none => none
    else some (false, p)

/-- Termination measure for the loops that repeatedly `step_char`: going
forward, the pair (rows left, bytes left on the current line) decreases
lexicographically; going backward, the pair (row, col) does. -/
def step_measure (b : Buffer) (d : Direction) (p : Position) : Nat × Nat :=
  match d with
  | .forward => (b.rows - p.row, byte_len ((b.get_line p.row).getD []) - p.col)
  | .backward => (p.row, p.col)

theorem Buffer.lt_rows_of_get_line (b : Buffer) (row : Nat) (l : List Char)
    (h : b.get_line row = some l) : row < b.rows := by
  by_contra hge
  have : b.lines[row]? = none := by
    apply List.getElem?_eq_none
    simpa [Buffer.rows] using hge
  rw [Buffer.get_line] at h
  rw [this] at h
  exact Option.noConfusion h

/-- Every successful `step_char` strictly decreases `step_measure`. -/
theorem step_char_measure_lt (b : Buffer) (d : Direction) (p p' : Position)
    (h : p.step_char b d = (true, p')) :
    (step_measure b d p').1 < (step_measure b d p).1 ∨
      ((step_measure b d p').1 = (step_measure b d p).1 ∧
        (step_measure b d p').2 < (step_measure b d p).2) := by
  rw [Position.step_char] at h
  cases hl : b.get_line p.row with
  | none => rw [hl] at h; simp at h
  | some ln =>
    rw [hl] at h
    have hrow : p.row < b.rows := b.lt_rows_of_get_line p.row ln hl
    cases d with
    | forward =>
      dsimp only at h
      split at h
      · rename_i h1
        have hp' : p' = ⟨p.row, p.col + 1⟩ := by
          have h2 := congrArg Prod.snd h
          simpa using h2.symm
        subst hp'
        right
        constructor
        · rfl
        · dsimp only [step_measure]
          rw [hl]
          dsimp only [Option.getD_some]
          omega
      · split at h
        · rename_i h1 h2
          have hp' : p' = ⟨p.row + 1, 0⟩ := by
            have h3 := congrArg Prod.snd h
            simpa using h3.symm
          subst hp'
          left
          dsimp only [step_measure]
          omega
        · simp at h
    | backward =>
      dsimp only at h
      split at h
      · rename_i h1
        have hp' : p' = ⟨p.row, p.col - 1⟩ := by
          have h2 := congrArg Prod.snd h
          simpa using h2.symm
        subst hp'
        right
        constructor
        · rfl
        · dsimp only [step_measure]
          omega
      · split at h
        · rename_i h1 h2
          split at h
          · rename_i prev_ln hpl
            have hp' : p' = ⟨p.row - 1, byte_len prev_ln - 1⟩ := by
              have h3 := congrArg Prod.snd h
              simpa using h3.symm
            subst hp'
            left
            dsimp only [step_measure]
            omega
          · rename_i hpl
            have hp' : p' = ⟨p.row - 1, 0⟩ := by
              have h3 := congrArg Prod.snd h
              simpa using h3.symm
            subst hp'
            left
            dsimp only [step_measure]
            omega
        · simp at h

/-- Whitespace-skipping loop of `Position::step_char_skip_spaces`
(src/core/position.rs): keep stepping while the landed character is
whitespace; a failing step inside the loop returns false keeping the
progress made so far. -/
def skip_spaces_loop (b : Buffer) (d : Direction) (p : Position) : Bool × Position :=
  if b.is_space p then
    match hs : p.step_char b d with
    | (false, p2) => (false, p2)
    | (true, p1) => skip_spaces_loop b d p1
  else (true, p)
termination_by step_measure b d p
decreasing_by
  rcases step_char_measure_lt b d p p1 hs with hlt | ⟨heq, hlt⟩
  · exact Prod.Lex.left _ _ hlt
  · have : step_measure b d p1 = ((step_measure b d p).1, (step_measure b d p1).2) := by
      rw [← heq]
    rw [this]
    have h2 : step_measure b d p = ((step_measure b d p).1, (step_measure b d p).2) := rfl
    rw [h2]
    exact Prod.Lex.right _ hlt

/-- One step then whitespace skipping (src/core/position.rs
`Position::step_char_skip_spaces`); fails immediately when the first
step fails. -/
def Position.step_char_skip_spaces (p : Position) (b : Buffer) (d : Direction) : Bool × Position :=
  match p.step_char b d with
  | (false, p2) => (false, p2)
  | (true, p1) => skip_spaces_loop b d p1

/-- Search loop of `Position::find_char` (src/core/position.rs): step
until a character equal to the target is found; none when the buffer
edge is reached first. -/
def find_char_loop (b : Buffer) (tgt : Char) (d : Direction) (p : Position) : Option Position :=
  match hs : p.step_char b d with
  | (false, _) => none
  | (true, p1) =>
    match b.get_char p1 with
    | some c => if c = tgt then some p1 else find_char_loop b tgt d p1
    | none => find_char_loop b tgt d p1
termination_by step_measure b d p
decreasing_by
  all_goals
    rcases step_char_measure_lt b d p p1 hs with hlt | ⟨heq, hlt⟩
  all_goals try exact Prod.Lex.left _ _ hlt
  all_goals
    have h1 : step_measure b d p1 = ((step_measure b d p).1, (step_measure b d p1).2) := by
      rw [← heq]
  all_goals rw [h1]
  all_goals exact Prod.Lex.right _ hlt

/-- Finds the next occurrence of the target character in the given
direction (src/core/position.rs `Position::find_char`). -/
def Position.find_char (p : Position) (b : Buffer) (tgt : Char) (d : Direction) : Option Position :=
  find_char_loop b tgt d p

/-- Jump to the next occurrence of the target character
(src/core/position.rs `Position::jump_to_char`); the position is only
written on success. -/
def Position.jump_to_char (p : Position) (b : Buffer) (tgt : Char) (d : Direction) : Bool × Position :=
  match p.find_char b tgt d with
  | some new_pos => (true, new_pos)
  | none => (false, p)

/-- Jump to just before the next occurrence of the target character
(src/core/position.rs `Position::jump_before_char`): find it, then step
one character back in the opposite direction; both the failed search and
the failed back-step leave the position untouched. -/
def Position.jump_before_char (p : Position) (b : Buffer) (tgt : Char) (d : Direction) :
    Bool × Position :=
  match p.find_char b tgt d with
  | some new_pos =>
    match new_pos.step_char b d.opposite with
    | (false, _) => (false, p)
    | (true, stepped) => (true, stepped)
  | none => (false, p)

/-- ASCII fragment of Rust's `char::is_alphanumeric`.  The source
predicate consults the full Unicode tables, which are not reproduced
here; on the ASCII range (all the repository's generated buffers, and
every concrete input in this file) the two agree, and the theorems below
rely only on word characters being disjoint from whitespace, which the
full predicate satisfies as well. -/
def is_alphanumeric (c : Char) : Bool :=
  (0x30 ≤ c.toNat && c.toNat ≤ 0x39) ||
  (0x41 ≤ c.toNat && c.toNat ≤ 0x5A) ||
  (0x61 ≤ c.toNat && c.toNat ≤ 0x7A)

/-- Word character: alphanumeric or underscore
(src/domain/motions/words.rs `is_word_char`). -/
def is_word_char (c : Char) : Bool :=
  is_alphanumeric c || c = '_'

/-- Punctuation-run character: non-blank and not a word character (the
predicate of the second pair of scans in `word_boundaries`). -/
def is_punct_char (c : Char) : Bool :=
  !rust_is_whitespace c && !is_word_char c

/-- The backward scan of `word_boundaries`: while `start > 0` and the
character before `start` satisfies the class predicate, decrement
`start`.  Both scans of the source are this code with the two class
predicates plugged in. -/
def scan_start (cls : Char → Bool) (chars : List Char) : Nat → Nat
  | 0 => 0
  | s + 1 =>
    match chars[s]? with
    | some c => if cls c then scan_start cls chars s else s + 1
    | none => s + 1

/-- The forward scan of `word_boundaries`: while `end + 1 < len` and the
character after `end` satisfies the class predicate, increment `end`.
The recursion is made structural on the number `rem` of loop iterations
still possible. -/
def scan_end_from (cls : Char → Bool) (chars : List Char) : Nat → Nat → Nat
  | 0, e => e
  | rem + 1, e =>
    match chars[e + 1]? with
    | some c => if cls c then scan_end_from cls chars rem (e + 1) else e
    | none => e

/-- The forward scan entry point: `chars.length - e` loop iterations are
always enough, because the loop stops at the latest once `e + 1` reaches
the length (there `chars[e + 1]?` is `none`), so the bounded body above
is exactly the source's while loop. -/
def scan_end (cls : Char → Bool) (chars : List Char) (e : Nat) : Nat :=
  scan_end_from cls chars (chars.length - e) e

/-- Word boundaries (src/domain/motions/words.rs `word_boundaries`):
none when the column is out of range or on whitespace; otherwise the
maximal run of word characters (or of punctuation characters) around the
column.  Indexing here is by character, as the source collects
`line.chars()` into a vector first. -/
def word_boundaries (chars : List Char) (col : Nat) : Option (Nat × Nat) :=
  if chars.length = 0 ∨ chars.length ≤ col then none
  else
    match chars[col]? with
    | none => none
    | some c0 =>
      if rust_is_whitespace c0 then none
      else if is_word_char c0 then
        some (scan_start is_word_char chars col, scan_end is_word_char chars col)
      else
        some (scan_start is_punct_char chars col, scan_end is_punct_char chars col)

/-- The motion repetition loop shared by all motions
(`for _ in 0..count { if !once { break } }`): the position reached when
a step fails is kept (partial progress, no rollback). -/
def run_motion (once : Position → Bool × Position) (p : Position) : Nat → Position
  | 0 => p
  | n + 1 =>
    match once p with
    | (false, p2) => p2
    | (true, p1) => run_motion once p1 n

/-- One `w` step (src/domain/motions/words.rs `w_motion_once`). -/
def w_motion_once (b : Buffer) (p : Position) : Bool × Position :=
  match b.get_line p.row with
  | none => (false, p)
  | some ln =>
    match word_boundaries ln p.col with
    | some (_, en) => Position.step_char_skip_spaces ⟨p.row, en⟩ b .forward
    | none => p.step_char_skip_spaces b .forward

/-- The `w` motion (src/domain/motions/words.rs `w_motion`). -/
def w_motion (b : Buffer) (p : Position) (count : Nat) : Position :=
  run_motion (w_motion_once b) p count

/-- One `b` step (src/domain/motions/words.rs `b_motion_once`). -/
def b_motion_once (b : Buffer) (p : Position) : Bool × Position :=
  match b.get_line p.row with
  | none => (false, p)
  | some ln =>
    match word_boundaries ln p.col with
    | some (st, _) =>
      if p.col = st then
        match p.step_char_skip_spaces b .backward with
        | (false, p2) => (false, p2)
        | (true, p1) =>
          match b.get_line p1.row with
          | none => (false, p1)
          | some ln1 =>
            match word_boundaries ln1 p1.col with
            | some (prev_st, _) => (true, ⟨p1.row, prev_st⟩)
            | none => (true, p1)
      else (true, ⟨p.row, st⟩)
    | none => p.step_char b .backward

/-- The `b` motion (src/domain/motions/words.rs `b_motion`). -/
def b_motion (b : Buffer) (p : Position) (count : Nat) : Position :=
  run_motion (b_motion_once b) p count

/-- One `e` step (src/domain/motions/words.rs `e_motion_once`): step
forward, skipping through whitespace, until landing in a run, then snap
to the run's end; the failing paths keep the steps already taken. -/
def e_motion_once (b : Buffer) (p : Position) : Bool × Position :=
  match hs : p.step_char b .forward with
  | (false, p2) => (false, p2)
  | (true, p1) =>
    match b.get_line p1.row with
    | none => (false, p1)
    | some ln =>
      match word_boundaries ln p1.col with
      | some (_, en) => (true, ⟨p1.row, en⟩)
      | none => e_motion_once b p1
termination_by step_measure b .forward p
decreasing_by
  rcases step_char_measure_lt b .forward p p1 hs with hlt | ⟨heq, hlt⟩
  · exact Prod.Lex.left _ _ hlt
  · have h1 : step_measure b .forward p1 =
        ((step_measure b .forward p).1, (step_measure b .forward p1).2) := by
      rw [← heq]
    rw [h1]
    exact Prod.Lex.right _ hlt

/-- The `e` motion (src/domain/motions/words.rs `e_motion`). -/
def e_motion (b : Buffer) (p : Position) (count : Nat) : Position :=
  run_motion (e_motion_once b) p count

/-- The `h` motion (src/motions/basic.rs `h_motion`): `count` backward
character steps, stopping early when a step fails. -/
def h_motion (b : Buffer) (p : Position) (count : Nat) : Position :=
  run_motion (fun q => q.step_char b .backward) p count

/-- The `l` motion (src/motions/basic.rs `l_motion`): `count` forward
character steps, stopping early when a step fails. -/
def l_motion (b : Buffer) (p : Position) (count : Nat) : Position :=
  run_motion (fun q => q.step_char b .forward) p count

/-- The `j` motion (src/motions/basic.rs `j_motion`): `count` forward
line steps, stopping early when a step fails; `none` propagates the
panic `step_line` can raise on an out-of-range row. -/
def j_motion (b : Buffer) (p : Position) : Nat → Option Position
  | 0 => some p
  | n + 1 =>
    match p.step_line b .forward with
    | none => none
    | some (false, p2) => some p2
    | some (true, p1) => j_motion b p1 n

/-- The `k` motion (src/motions/basic.rs `k_motion`): `count` backward
line steps, stopping early when a step fails. -/
def k_motion (b : Buffer) (p : Position) : Nat → Option Position
  | 0 => some p
  | n + 1 =>
    match p.step_line b .backward with
    | none => none
    | some (false, p2) => some p2
    | some (true, p1) => k_motion b p1 n

/-- The `f` motion (src/motions/jumps.rs `f_motion`). -/
def f_motion (tar : Char) (b : Buffer) (p : Position) (count : Nat) : Position :=
  run_motion (fun q => q.jump_to_char b tar .forward) p count

/-- The `F` motion (src/motions/jumps.rs `big_f_motion`). -/
def big_f_motion (tar : Char) (b : Buffer) (p : Position) (count : Nat) : Position :=
  run_motion (fun q => q.jump_to_char b tar .backward) p count

/-- The `t` motion (src/motions/jumps.rs `t_motion`). -/
def t_motion (tar : Char) (b : Buffer) (p : Position) (count : Nat) : Position :=
  run_motion (fun q => q.jump_before_char b tar .forward) p count

/-- The `T` motion (src/motions/jumps.rs `big_t_motion`). -/
def big_t_motion (tar : Char) (b : Buffer) (p : Position) (count : Nat) : Position :=
  run_motion (fun q => q.jump_before_char b tar .backward) p count

/-- The motion vocabulary (src/domain/motions/motion.rs `Motion`). -/
inductive Motion where
  | left
  | down
  | up
  | right
  | wordStart
  | wordEnd
  | wordBackward
  | findNextChar (c : Char)
  | findPrevChar (c : Char)
  | tillNextChar (c : Char)
  | tillPrevChar (c : Char)
deriving DecidableEq

/-- Whether the motion is one of the four character-targeted ones
(src/domain/motions/motion.rs `Motion::is_find_till`). -/
def Motion.is_find_till : Motion → Bool
  | .findNextChar _ | .findPrevChar _ | .tillNextChar _ | .tillPrevChar _ => true
  | _ => false

/-- Whether the motion is vertical (src/domain/motions/motion.rs
`Motion::is_vertical`). -/
def Motion.is_vertical : Motion → Bool
  | .up | .down => true
  | _ => false

/-- Reverse of a find/till motion (src/domain/motions/motion.rs
`Motion::reverse_find_till`). -/
def Motion.reverse_find_till : Motion → Option Motion
  | .findNextChar c => some (.findPrevChar c)
  | .findPrevChar c => some (.findNextChar c)
  | .tillNextChar c => some (.tillPrevChar c)
  | .tillPrevChar c => some (.tillNextChar c)
  | _ => none

/-- Motion dispatch (src/domain/motions/motion.rs `Motion::apply`).  The
source routes `Down` to `k_motion` and `Up` to `j_motion`; `none`
propagates the panic reachable through `step_line`. -/
def Motion.apply (m : Motion) (b : Buffer) (p : Position) (count : Nat) : Option Position :=
  match m with
  | .left => some (h_motion b p count)
  | .down => k_motion b p count
  | .up => j_motion b p count
  | .right => some (l_motion b p count)
  | .wordStart => some (w_motion b p count)
  | .wordEnd => some (e_motion b p count)
  | .wordBackward => some (b_motion b p count)
  | .findNextChar tar => some (f_motion tar b p count)
  | .findPrevChar tar => some (big_f_motion tar b p count)
  | .tillNextChar tar => some (t_motion tar b p count)
  | .tillPrevChar tar => some (big_t_motion tar b p count)

/-- Unfolding lemma: the skip loop stops with success on a non-space. -/
theorem skip_spaces_loop_stop (b : Buffer) (d : Direction) (p : Position)
    (h : b.is_space p = false) : skip_spaces_loop b d p = (true, p) := by
  rw [skip_spaces_loop]
  simp [h]

/-- Unfolding lemma: on a space, a successful step continues the loop. -/
theorem skip_spaces_loop_step (b : Buffer) (d : Direction) (p p1 : Position)
    (hsp : b.is_space p = true) (hs : p.step_char b d = (true, p1)) :
    skip_spaces_loop b d p = skip_spaces_loop b d p1 := by
  rw [skip_spaces_loop]
  simp only [hsp, if_true]
  split
  · rename_i p2 heq
    rw [hs] at heq
    exact absurd (congrArg Prod.fst heq) (by simp)
  · rename_i p2 heq
    rw [hs] at heq
    have h2 := congrArg Prod.snd heq
    simp at h2
    rw [h2]

/-- Unfolding lemma: on a space, a failing step ends the loop with
failure. -/
theorem skip_spaces_loop_fail (b : Buffer) (d : Direction) (p p2 : Position)
    (hsp : b.is_space p = true) (hs : p.step_char b d = (false, p2)) :
    skip_spaces_loop b d p = (false, p2) := by
  rw [skip_spaces_loop]
  simp only [hsp, if_true]
  split
  · rename_i p3 heq
    rw [hs] at heq
    have h2 := congrArg Prod.snd heq
    simp at h2
    rw [h2]
  · rename_i p3 heq
    rw [hs] at heq
    exact absurd (congrArg Prod.fst heq) (by simp)

/-- Unfolding lemma: the search loop fails when the step fails. -/
theorem find_char_loop_fail (b : Buffer) (tgt : Char) (d : Direction) (p p2 : Position)
    (hs : p.step_char b d = (false, p2)) : find_char_loop b tgt d p = none := by
  rw [find_char_loop]
  split
  · rfl
  · rename_i p3 heq
    rw [hs] at heq
    exact absurd (congrArg Prod.fst heq) (by simp)

/-- Unfolding lemma: the search loop returns the stepped position when
it carries the target character. -/
theorem find_char_loop_found (b : Buffer) (tgt : Char) (d : Direction) (p p1 : Position)
    (hs : p.step_char b d = (true, p1)) (hc : b.get_char p1 = some tgt) :
    find_char_loop b tgt d p = some p1 := by
  rw [find_char_loop]
  split
  · rename_i p3 heq
    rw [hs] at heq
    exact absurd (congrArg Prod.fst heq) (by simp)
  · rename_i p3 heq
    rw [hs] at heq
    have h2 := congrArg Prod.snd heq
    simp at h2
    subst h2
    rw [hc]
    simp

/-- Unfolding lemma: the search loop continues past a stepped position
that does not carry the target character. -/
theorem find_char_loop_next (b : Buffer) (tgt : Char) (d : Direction) (p p1 : Position)
    (hs : p.step_char b d = (true, p1)) (hc : b.get_char p1 ≠ some tgt) :
    find_char_loop b tgt d p = find_char_loop b tgt d p1 := by
  rw [find_char_loop]
  split
  · rename_i p3 heq
    rw [hs] at heq
    exact absurd (congrArg Prod.fst heq) (by simp)
  · rename_i p3 heq
    rw [hs] at heq
    have h2 := congrArg Prod.snd heq
    simp at h2
    subst h2
    cases hg : b.get_char p1 with
    | none => rfl
    | some c =>
      have : c ≠ tgt := fun hct => hc (hct ▸ hg)
      simp [this]

/-- Fixed-capacity FIFO queue (src/domain/types.rs `BoundedQueue`),
modelled as the requested capacity together with the queued elements,
front first.  `VecDeque::with_capacity(n)` allocates exactly `n` slots,
and `push` below never lets the length grow past the capacity it found,
so the allocation — and with it Rust's `capacity()` — stays at `n`
whenever `n ≥ 1`. -/
structure BoundedQueue (T : Type) where
  cap : Nat
  data : List T
deriving DecidableEq

/--`BoundedQueue::new(capacity)`. -/
def BoundedQueue.new (T : Type) (capacity : Nat) : BoundedQueue T :=
  ⟨capacity, []⟩

/-- `BoundedQueue::push`: drop the oldest element when at capacity, then
append at the back. -/
def BoundedQueue.push {T : Type} (q : BoundedQueue T) (item : T) : BoundedQueue T :=
  if q.data.length = q.cap then ⟨q.cap, q.data.tail ++ [item]⟩
  else ⟨q.cap, q.data ++ [item]⟩

/-- `BoundedQueue::len`. -/
def BoundedQueue.len {T : Type} (q : BoundedQueue T) : Nat :=
  q.data.length

/-- `BoundedQueue::last`: the most recently pushed element. -/
def BoundedQueue.last {T : Type} (q : BoundedQueue T) : Option T :=
  q.data.getLast?

/-- `BoundedQueue::clear`. -/
def BoundedQueue.clear {T : Type} (q : BoundedQueue T) : BoundedQueue T :=
  ⟨q.cap, []⟩

/-- Push a whole sequence of items in order. -/
def BoundedQueue.push_all {T : Type} (q : BoundedQueue T) : List T → BoundedQueue T
  | [] => q
  | x :: xs => (q.push x).push_all xs

/-- Cursor memory (src/domain/cursor.rs `CursorMemory`): the remembered
target column for vertical motions and the bounded position history.
The history's timestamps (`Instant::now()` in the source) are modelled
as opaque values supplied by the caller. -/
structure CursorMemory where
  target_col : Option Nat
  position_history : BoundedQueue (Nat × Position)
deriving DecidableEq

/-- A cursor within the text buffer (src/domain/cursor.rs `Cursor`). -/
structure Cursor where
  position : Position
  memory : CursorMemory
deriving DecidableEq

/-- `Cursor::apply_motion` (src/domain/cursor.rs): record the old
position in the history, apply the motion with `count.unwrap_or(1)`,
then either clamp the column to the remembered target column (vertical
motion) or remember the new column (anything else).  `now` stands for
the `Instant::now()` timestamp; `none` propagates the panic reachable
through a vertical motion's `step_line`. -/
def Cursor.apply_motion (c : Cursor) (b : Buffer) (m : Motion) (count : Option Nat)
    (now : Nat) : Option Cursor :=
  let hist := c.memory.position_history.push (now, c.position)
  let cnt := count.getD 1
  match m.apply b c.position cnt with
  | none => none
  | some p1 =>
    if m.is_vertical then
      let col1 := match c.memory.target_col with
        | some col => min col (b.get_line_len p1.row)
        | none => p1.col
      some ⟨⟨p1.row, col1⟩, ⟨c.memory.target_col, hist⟩⟩
    else
      some ⟨p1, ⟨some p1.col, hist⟩⟩

/-- Logical key codes (src/app/input.rs works on crossterm's `KeyCode`).
Only the character variant is ever inspected by the input manager; every
named non-character key falls through to the same catch-all arms, so a
few representative named keys suffice. -/
inductive KeyCode where
  | char (c : Char)
  | esc
  | enter
  | tab
  | backspace
deriving DecidableEq

/-- Modifier bitflags, as crossterm encodes them. -/
def KeyModifiers.NONE : Nat := 0

/-- The shift modifier flag. -/
def KeyModifiers.SHIFT : Nat := 1

/-- The control modifier flag. -/
def KeyModifiers.CONTROL : Nat := 2

/-- A key event: code plus modifier set. -/
structure KeyEvent where
  code : KeyCode
  modifiers : Nat
deriving DecidableEq

/-- An action resulting from user input (src/app/input.rs `UserAction`);
`motion m none` is the source's `single_motion`, `motion m (some n)` its
`repeated_motion`. -/
inductive UserAction where
  | motion (m : Motion) (count : Option Nat)
  | noop
  | pending
  | newGame
  | quit
deriving DecidableEq

/-- The pending find/till letter stored in `AwaitingTarget` (the source
keeps the `&'static str` literals "f", "F", "t", "T"; no other value is
ever stored, so they are modelled as an enumeration). -/
inductive TargetLetter where
  | f
  | bigF
  | t
  | bigT
deriving DecidableEq

/-- The combo prefix stored in `AwaitingCombo` (only ":" is ever
stored). -/
inductive ComboPrefix where
  | colon
deriving DecidableEq

/-- The state of input processing (src/app/input.rs `InputState`). -/
inductive InputState where
  | idle
  | counting (count : Nat)
  | awaitingTarget (motion : TargetLetter) (count : Option Nat)
  | awaitingCombo (pre : ComboPrefix) (count : Option Nat)
deriving DecidableEq

/-- The input manager (src/app/input.rs `InputManager`): current state
plus the two bounded histories. -/
structure InputManager where
  state : InputState
  event_history : BoundedQueue KeyEvent
  motion_history : BoundedQueue Motion
deriving DecidableEq

/-- `EVENT_HISTORY_LEN` (src/app/input.rs). -/
def EVENT_HISTORY_LEN : Nat := 32

/-- `MOTION_HISTORY_LEN` (src/app/input.rs). -/
def MOTION_HISTORY_LEN : Nat := 8

/-- `InputManager::default`. -/
def InputManager.default : InputManager :=
  ⟨.idle, BoundedQueue.new KeyEvent EVENT_HISTORY_LEN, BoundedQueue.new Motion MOTION_HISTORY_LEN⟩

/-- `InputManager::reset`. -/
def InputManager.reset (mgr : InputManager) : InputManager :=
  ⟨.idle, mgr.event_history.clear, mgr.motion_history.clear⟩

/-- `InputManager::map_key_to_motion` (src/app/input.rs): the fixed
key-to-motion table, all entries requiring no modifier. -/
def map_key_to_motion (key : KeyEvent) : Option Motion :=
  match key.code with
  | .char c =>
    if key.modifiers = KeyModifiers.NONE then
      if c = 'h' then some .left
      else if c = 'l' then some .right
      else if c = 'j' then some .down
      else if c = 'k' then some .up
      else if c = 'w' then some .wordStart
      else if c = 'e' then some .wordEnd
      else if c = 'b' then some .wordBackward
      else none
    else none
  | _ => none

/-- The catch-all arm of `handle_idle`: a motion key emits the single
motion and records it, anything else is a no-op. -/
def InputManager.idle_default (mgr : InputManager) (key : KeyEvent) :
    UserAction × InputManager :=
  match map_key_to_motion key with
  | some m => (.motion m none, { mgr with motion_history := mgr.motion_history.push m })
  | none => (.noop, mgr)

/-- `InputManager::handle_idle` (src/app/input.rs). -/
def InputManager.handle_idle (mgr : InputManager) (key : KeyEvent) :
    UserAction × InputManager :=
  match key.code with
  | .char c =>
    if ('1' ≤ c ∧ c ≤ '9') ∧ key.modifiers = KeyModifiers.NONE then
      (.pending, { mgr with state := .counting (c.toNat - 48) })
    else if c = 'f' ∧ key.modifiers = KeyModifiers.NONE then
      (.pending, { mgr with state := .awaitingTarget .f none })
    else if c = 'F' ∧ key.modifiers = KeyModifiers.SHIFT then
      (.pending, { mgr with state := .awaitingTarget .bigF none })
    else if c = 't' ∧ key.modifiers = KeyModifiers.NONE then
      (.pending, { mgr with state := .awaitingTarget .t none })
    else if c = 'T' ∧ key.modifiers = KeyModifiers.SHIFT then
      (.pending, { mgr with state := .awaitingTarget .bigT none })
    else if c = ';' ∧ key.modifiers = KeyModifiers.NONE then
      match mgr.motion_history.last with
      | some last => if last.is_find_till then (.motion last none, mgr) else (.noop, mgr)
      | none => (.noop, mgr)
    else if c = ',' ∧ key.modifiers = KeyModifiers.NONE then
      match mgr.motion_history.last with
      | some last =>
        match last.reverse_find_till with
        | some reversed => (.motion reversed none, mgr)
        | none => (.noop, mgr)
      | none => (.noop, mgr)
    else if c = ':' ∧ key.modifiers = KeyModifiers.NONE then
      (.pending, { mgr with state := .awaitingCombo .colon none })
    else mgr.idle_default key
  | _ => mgr.idle_default key

/-- `InputManager::handle_counting` (src/app/input.rs). -/
def InputManager.handle_counting (mgr : InputManager) (current : Nat) (key : KeyEvent) :
    UserAction × InputManager :=
  match key.code with
  | .char c =>
    if ('0' ≤ c ∧ c ≤ '9') ∧ key.modifiers = KeyModifiers.NONE then
      (.pending, { mgr with state := .counting (current * 10 + (c.toNat - 48)) })
    else if c = 'f' ∧ key.modifiers = KeyModifiers.NONE then
      (.pending, { mgr with state := .awaitingTarget .f (some current) })
    else if c = 'F' ∧ key.modifiers = KeyModifiers.SHIFT then
      (.pending, { mgr with state := .awaitingTarget .bigF (some current) })
    else if c = 't' ∧ key.modifiers = KeyModifiers.NONE then
      (.pending, { mgr with state := .awaitingTarget .t (some current) })
    else if c = 'T' ∧ key.modifiers = KeyModifiers.SHIFT then
      (.pending, { mgr with state := .awaitingTarget .bigT (some current) })
    else counting_default mgr current key
  | _ => counting_default mgr current key
where
  /-- The catch-all arm of `handle_counting`: back to idle; a motion key
  emits the motion repeated `current` times and records it. -/
  counting_default (mgr : InputManager) (current : Nat) (key : KeyEvent) :
      UserAction × InputManager :=
    match map_key_to_motion key with
    | some m =>
      (.motion m (some current),
        { mgr with state := .idle, motion_history := mgr.motion_history.push m })
    | none => (.noop, { mgr with state := .idle })

/-- `InputManager::handle_target` (src/app/input.rs): a character key
resolves the pending find/till motion and returns to idle; any other
key is a no-op — and the state field is not written on that path. -/
def InputManager.handle_target (mgr : InputManager) (motion : TargetLetter)
    (count : Option Nat) (key : KeyEvent) : UserAction × InputManager :=
  match key.code with
  | .char c =>
    let m : Motion := match motion with
      | .f => .findNextChar c
      | .bigF => .findPrevChar c
      | .t => .tillNextChar c
      | .bigT => .tillPrevChar c
    let mgr1 : InputManager :=
      { mgr with state := .idle, motion_history := mgr.motion_history.push m }
    match count with
    | some cnt => (.motion m (some cnt), mgr1)
    | none => (.motion m none, mgr1)
  | _ => (.noop, mgr)

/-- `InputManager::handle_combo` (src/app/input.rs). -/
def InputManager.handle_combo (mgr : InputManager) (pre : ComboPrefix)
    (_count : Option Nat) (key : KeyEvent) : UserAction × InputManager :=
  match pre, key.code with
  | .colon, .char c =>
    if c = 'q' ∧ key.modifiers = KeyModifiers.NONE then
      (.quit, { mgr with state := .idle })
    else if c = 'n' ∧ key.modifiers = KeyModifiers.NONE then
      (.newGame, { mgr with state := .idle })
    else (.noop, { mgr with state := .idle })
  | .colon, _ => (.noop, { mgr with state := .idle })

/-- `InputManager::handle_key` (src/app/input.rs): dispatch on the
current state, then append the key to the event history. -/
def InputManager.handle_key (mgr : InputManager) (key : KeyEvent) :
    UserAction × InputManager :=
  let res := match mgr.state with
    | .idle => mgr.handle_idle key
    | .counting count => mgr.handle_counting count key
    | .awaitingTarget motion count => mgr.handle_target motion count key
    | .awaitingCombo pre count => mgr.handle_combo pre count key
  (res.1, { res.2 with event_history := res.2.event_history.push key })

/-- Whether a key code is a character key. -/
def KeyCode.is_char : KeyCode → Bool
  | .char _ => true
  | _ => false

theorem Buffer.get_line_eq_none_iff (b : Buffer) (row : Nat) :
    b.get_line row = none ↔ b.rows ≤ row := by
  simp [Buffer.get_line, Buffer.rows, List.getElem?_eq_none_iff]

theorem Buffer.get_line_isSome (b : Buffer) (row : Nat) (h : row < b.rows) :
    ∃ ln, b.get_line row = some ln := by
  cases hg : b.get_line row with
  | none => exact absurd ((b.get_line_eq_none_iff row).mp hg) (by omega)
  | some ln => exact ⟨ln, rfl⟩

/-- A failing `step_char` leaves the position unchanged. -/
theorem step_char_fail_eq (b : Buffer) (d : Direction) (p q : Position)
    (h : p.step_char b d = (false, q)) : q = p := by
  rw [Position.step_char] at h
  cases hl : b.get_line p.row with
  | none =>
    rw [hl] at h
    dsimp only at h
    have := congrArg Prod.snd h
    simpa using this.symm
  | some ln =>
    rw [hl] at h
    cases d with
    | forward =>
      dsimp only at h
      split at h
      · simp at h
      · split at h
        · simp at h
        · have := congrArg Prod.snd h
          simpa using this.symm
    | backward =>
      dsimp only at h
      split at h
      · simp at h
      · split at h
        · split at h <;> simp at h
        · have := congrArg Prod.snd h
          simpa using this.symm

/-- A failing `step_line` leaves the position unchanged. -/
theorem step_line_fail_eq (b : Buffer) (d : Direction) (p q : Position)
    (h : p.step_line b d = some (false, q)) : q = p := by
  rw [Position.step_line.eq_def] at h
  cases d with
  | forward =>
    dsimp only at h
    split at h
    · split at h <;> simp at h
    · have := congrArg (fun o => Option.map Prod.snd o) h
      simpa using this.symm
  | backward =>
    dsimp only at h
    split at h
    · split at h <;> simp at h
    · have := congrArg (fun o => Option.map Prod.snd o) h
      simpa using this.symm

/-- C1 (code bug): the claim says `Motion::apply` moves `Down` one row
forward (to the next higher-indexed row, as vim's `j` does, and as the
`Down, // j` comment on the enum intends) and `Up` one row backward.
The source instead routes `Down` to `k_motion`, which steps the line
backward, and `Up` to `j_motion`, which steps it forward.  On the
two-line buffer below, applying `Down` at the last row — where the claim
demands a failed move leaving the position unchanged — instead moves the
cursor up to row 0, and applying `Up` at row 0 moves it down to row 1. -/
theorem claim_C1 :
    Motion.apply .down ⟨["ab".toList, "cd".toList]⟩ ⟨1, 0⟩ 1 = some ⟨0, 0⟩ ∧
    Motion.apply .up ⟨["ab".toList, "cd".toList]⟩ ⟨0, 0⟩ 1 = some ⟨1, 0⟩ ∧
    Motion.apply .down ⟨["ab".toList, "cd".toList]⟩ ⟨0, 0⟩ 1 = some ⟨0, 0⟩ := by
  decide

/-- C2 (corrected): out-of-range addressing indeed yields `none`, and
`step_line` going forward never reaches its `Row should exist`
expectation — an out-of-range row simply returns false unchanged.  But
going backward the expectation is reachable: it is only avoided when
`row ≤ rows()`; from `row > rows()` the backward step panics (see the
counterexample), so the claim's blanket "returns false rather than
faulting on any out-of-range row" had to be weakened to these cases. -/
theorem claim_C2 :
    (∀ (b : Buffer) (row : Nat), b.rows ≤ row → b.get_line row = none) ∧
    (∀ (b : Buffer) (pos : Position) (ln : List Char),
      b.get_line pos.row = some ln → ln.length ≤ pos.col → b.get_char pos = none) ∧
    (∀ (b : Buffer) (pos : Position), b.rows ≤ pos.row → b.get_char pos = none) ∧
    (∀ (b : Buffer) (p : Position), p.step_line b .forward ≠ none) ∧
    (∀ (b : Buffer) (p : Position), b.rows ≤ p.row →
      p.step_line b .forward = some (false, p)) ∧
    (∀ (b : Buffer) (p : Position), p.row ≤ b.rows → p.step_line b .backward ≠ none) := by
  refine ⟨?_, ?_, ?_, ?_, ?_, ?_⟩
  · intro b row h
    exact (b.get_line_eq_none_iff row).mpr h
  · intro b pos ln hln hcol
    rw [Buffer.get_char, hln]
    exact List.getElem?_eq_none hcol
  · intro b pos h
    rw [Buffer.get_char, (b.get_line_eq_none_iff pos.row).mpr h]
  · intro b p h
    rw [Position.step_line.eq_def] at h
    dsimp only at h
    split at h
    · rename_i hlt
      obtain ⟨ln, hln⟩ := b.get_line_isSome (p.row + 1) hlt
      rw [hln] at h
      exact Option.noConfusion h
    · exact Option.noConfusion h
  · intro b p h
    rw [Position.step_line.eq_def]
    dsimp only
    rw [if_neg (by omega)]
  · intro b p h hnone
    rw [Position.step_line.eq_def] at hnone
    dsimp only at hnone
    split at hnone
    · rename_i hpos
      obtain ⟨ln, hln⟩ := b.get_line_isSome (p.row - 1) (by omega)
      rw [hln] at hnone
      exact Option.noConfusion hnone
    · exact Option.noConfusion hnone

/-- C2 counterexample: `step_line` backward from row 2 of a one-line
buffer reaches the `Row should exist` expectation and panics (modelled
as `none`), rather than returning false as the claim asserts for every
out-of-range row. -/
theorem claim_C2_counterexample :
    Position.step_line ⟨2, 0⟩ ⟨[['a']]⟩ .backward = none := by decide

/-- C2 witness: the amended statements instantiated on a concrete
buffer. -/
theorem claim_C2_witness :
    Buffer.get_line ⟨[['a']]⟩ 3 = none ∧
    Position.step_line ⟨5, 0⟩ ⟨[['a']]⟩ .forward = some (false, ⟨5, 0⟩) ∧
    Position.step_line ⟨1, 0⟩ ⟨[['a']]⟩ .backward ≠ none :=
  ⟨claim_C2.1 ⟨[['a']]⟩ 3 (by decide),
   claim_C2.2.2.2.2.1 ⟨[['a']]⟩ ⟨5, 0⟩ (by decide),
   claim_C2.2.2.2.2.2 ⟨[['a']]⟩ ⟨1, 0⟩ (by decide)⟩

/-- C5 (corrected): `get_line_len` is indeed 0 on an out-of-range row,
and `get_char` does address by character index; but the length it
returns is `String::len`, a UTF-8 byte count, which equals the character
count only when every character of the line is a single UTF-8 byte
(ASCII).  The column bounds of `step_char` likewise compare against the
byte length (see its definition), not the character count. -/
theorem claim_C5 :
    (∀ (b : Buffer) (row : Nat), b.rows ≤ row → b.get_line_len row = 0) ∧
    (∀ (b : Buffer) (row : Nat) (ln : List Char),
      b.get_line row = some ln → b.get_line_len row = byte_len ln) ∧
    (∀ ln : List Char, (∀ c ∈ ln, Char.utf8Size c = 1) → byte_len ln = ln.length) ∧
    (∀ (b : Buffer) (pos : Position) (ln : List Char),
      b.get_line pos.row = some ln → b.get_char pos = ln[pos.col]?) := by
  refine ⟨?_, ?_, ?_, ?_⟩
  · intro b row h
    rw [Buffer.get_line_len, (b.get_line_eq_none_iff row).mpr h]
  · intro b row ln h
    rw [Buffer.get_line_len, h]
  · intro ln h
    induction ln with
    | nil => rfl
    | cons c cs ih =>
      have hc : Char.utf8Size c = 1 := h c (by simp)
      have ih2 := ih (fun x hx => h x (by simp [hx]))
      simp [byte_len] at ih2 ⊢
      omega
  · intro b pos ln h
    rw [Buffer.get_char, h]

/-- C5 counterexample: a line consisting of the single two-byte
character é has `get_line_len` 2, not the character count 1. -/
theorem claim_C5_counterexample :
    Buffer.get_line_len ⟨[['é']]⟩ 0 ≠ (['é'] : List Char).length := by decide

/-- C5 witness: the amended statements instantiated concretely, on an
out-of-range row and on an all-ASCII line where byte and character
counts agree. -/
theorem claim_C5_witness :
    Buffer.get_line_len ⟨[['a', 'b']]⟩ 4 = 0 ∧
    byte_len ['a', 'b'] = (['a', 'b'] : List Char).length ∧
    Buffer.get_char ⟨[['a', 'b']]⟩ ⟨0, 1⟩ = (['a', 'b'] : List Char)[1]? :=
  ⟨claim_C5.1 ⟨[['a', 'b']]⟩ 4 (by decide),
   claim_C5.2.2.1 ['a', 'b'] (by decide),
   claim_C5.2.2.2 ⟨[['a', 'b']]⟩ ⟨0, 1⟩ ['a', 'b'] (by decide)⟩

/-- C6 (corrected): a count of 0 is not equivalent to a count of 1 —
the repetition loop simply runs zero times, leaving the position
unchanged (first conjunct).  What does default to 1 is an *omitted*
count: `Cursor::apply_motion` resolves `count.unwrap_or(1)`, so passing
no count and passing count 1 agree (second conjunct). -/
theorem claim_C6 :
    (∀ (m : Motion) (b : Buffer) (p : Position), m.apply b p 0 = some p) ∧
    (∀ (m : Motion) (b : Buffer) (c : Cursor) (now : Nat),
      c.apply_motion b m none now = c.apply_motion b m (some 1) now) := by
  constructor
  · intro m b p
    cases m <;> rfl
  · intro m b c now
    rfl

/-- C6 counterexample: applying `Right` with count 0 differs from
count 1 on a two-character line. -/
theorem claim_C6_counterexample :
    Motion.apply .right ⟨["ab".toList]⟩ ⟨0, 0⟩ 0 ≠
      Motion.apply .right ⟨["ab".toList]⟩ ⟨0, 0⟩ 1 := by decide

/-- Contents of a queue after pushing a sequence: the concatenation of
the old contents and the pushed items, with everything before the last
`cap` positions dropped (provided the capacity is positive and the
queue starts within capacity). -/
theorem BoundedQueue.push_all_data {T : Type} (xs : List T) (n : Nat) (d : List T)
    (hcap : 1 ≤ n) (hlen : d.length ≤ n) :
    ((⟨n, d⟩ : BoundedQueue T).push_all xs).cap = n ∧
      ((⟨n, d⟩ : BoundedQueue T).push_all xs).data =
        (d ++ xs).drop (d.length + xs.length - n) := by
  induction xs generalizing d with
  | nil =>
    refine ⟨rfl, ?_⟩
    have h0 : d.length - n = 0 := by omega
    simp [BoundedQueue.push_all, h0]
  | cons x xs ih =>
    rw [BoundedQueue.push_all]
    by_cases hfull : d.length = n
    · have hpush : (⟨n, d⟩ : BoundedQueue T).push x = ⟨n, d.tail ++ [x]⟩ := by
        rw [BoundedQueue.push]
        dsimp only
        rw [if_pos hfull]
      rw [hpush]
      have hne : d ≠ [] := by
        intro h0
        rw [h0] at hfull
        simp at hfull
        omega
      have hlen1 : (d.tail ++ [x]).length = n := by
        rw [List.length_append, List.length_tail]
        simp
        omega
      obtain ⟨hc, hd2⟩ := ih (d.tail ++ [x]) (le_of_eq hlen1)
      refine ⟨hc, ?_⟩
      rw [hd2, hlen1]
      have h1 : n + xs.length - n = xs.length := by omega
      have h2 : d.length + (x :: xs).length - n = xs.length + 1 := by
        simp
        omega
      rw [h1, h2]
      obtain ⟨d0, dtl, rfl⟩ := List.exists_cons_of_ne_nil hne
      simp only [List.tail_cons, List.cons_append, List.append_assoc, List.singleton_append]
      rw [List.drop_succ_cons]
      simp
    · have hpush : (⟨n, d⟩ : BoundedQueue T).push x = ⟨n, d ++ [x]⟩ := by
        rw [BoundedQueue.push]
        dsimp only
        rw [if_neg hfull]
      rw [hpush]
      obtain ⟨hc, hd2⟩ := ih (d ++ [x]) (by simp; omega)
      refine ⟨hc, ?_⟩
      rw [hd2]
      simp only [List.length_append, List.append_assoc, List.singleton_append,
        List.length_singleton]
      congr 1
      simp
      omega

/-- C7 (corrected): for every positive capacity `n`, pushing `n + 1`
items into a fresh queue leaves exactly the last `n` of them, in FIFO
order — the oldest was evicted and the newest kept — and `len ≤ cap` is
preserved by every push.  The claim's quantification over *every*
capacity fails only at `n = 0`: `VecDeque::with_capacity(0)` reports
capacity 0, so the first push pops the (absent) oldest element and then
appends, giving length 1 (see the counterexample). -/
theorem claim_C7 :
    (∀ (T : Type) (n : Nat), 1 ≤ n → ∀ xs : List T, xs.length = n + 1 →
      ((BoundedQueue.new T n).push_all xs).len = n ∧
        ((BoundedQueue.new T n).push_all xs).data = xs.tail) ∧
    (∀ (T : Type) (q : BoundedQueue T) (x : T), 1 ≤ q.cap → q.len ≤ q.cap →
      (q.push x).len ≤ q.cap) := by
  constructor
  · intro T n hn xs hxs
    obtain ⟨hc, hd⟩ := BoundedQueue.push_all_data xs n [] hn (by simp)
    have hdrop : (([] : List T) ++ xs).drop (([] : List T).length + xs.length - n)
        = xs.drop 1 := by
      simp [hxs]
    constructor
    · rw [BoundedQueue.len, BoundedQueue.new, hd, hdrop]
      simp [hxs]
    · rw [BoundedQueue.new, hd, hdrop, List.drop_one]
  · intro T q x hcap hlen
    rw [BoundedQueue.len] at hlen ⊢
    rw [BoundedQueue.push]
    split
    · rename_i hfull
      simp [List.length_tail]
      omega
    · simp
      omega

/-- C7 counterexample: with capacity 0 the first push already exceeds
the capacity — the new element is appended after popping from an empty
queue, so the length is 1, not 0 as the claim requires of `n = 0`. -/
theorem claim_C7_counterexample :
    ((BoundedQueue.new Nat 0).push_all [7]).len ≠ 0 := by decide

/-- C7 witness: capacity 2, three pushes: length 2 and exactly the last
two items in order remain. -/
theorem claim_C7_witness :
    ((BoundedQueue.new Nat 2).push_all [10, 20, 30]).len = 2 ∧
      ((BoundedQueue.new Nat 2).push_all [10, 20, 30]).data = [20, 30] :=
  claim_C7.1 Nat 2 (by decide) [10, 20, 30] (by decide)

/-- C4 (corrected): in `AwaitingTarget` a non-character key does emit
`Noop`, but the source's catch-all arm in `handle_target` never writes
the state field, so the machine *stays* in `AwaitingTarget` instead of
returning to `Idle` — the pending target acquisition is kept, not
abandoned.  The machine is still not stuck: any character key resolves
the pending find/till motion and returns to `Idle` (second part). -/
theorem claim_C4 :
    (∀ (letter : TargetLetter) (count : Option Nat) (eh : BoundedQueue KeyEvent)
      (mh : BoundedQueue Motion) (key : KeyEvent), key.code.is_char = false →
      (InputManager.handle_key ⟨.awaitingTarget letter count, eh, mh⟩ key).1 =
          UserAction.noop ∧
        (InputManager.handle_key ⟨.awaitingTarget letter count, eh, mh⟩ key).2.state =
          InputState.awaitingTarget letter count) ∧
    (∀ (letter : TargetLetter) (count : Option Nat) (eh : BoundedQueue KeyEvent)
      (mh : BoundedQueue Motion) (c : Char) (mods : Nat),
      (InputManager.handle_key ⟨.awaitingTarget letter count, eh, mh⟩
          ⟨.char c, mods⟩).2.state = InputState.idle) := by
  constructor
  · intro letter count eh mh key hnc
    obtain ⟨code, mods⟩ := key
    cases code with
    | char c => simp [KeyCode.is_char] at hnc
    | esc => exact ⟨rfl, rfl⟩
    | enter => exact ⟨rfl, rfl⟩
    | tab => exact ⟨rfl, rfl⟩
    | backspace => exact ⟨rfl, rfl⟩
  · intro letter count eh mh c mods
    cases count <;> rfl

/-- C4 counterexample: from `AwaitingTarget("f", no count)`, an escape
key leaves the machine in `AwaitingTarget`, not `Idle` as claimed. -/
theorem claim_C4_counterexample :
    (InputManager.handle_key
        ⟨.awaitingTarget .f none, BoundedQueue.new KeyEvent EVENT_HISTORY_LEN,
          BoundedQueue.new Motion MOTION_HISTORY_LEN⟩
        ⟨.esc, KeyModifiers.NONE⟩).2.state ≠ InputState.idle := by decide

/-- C4 witness: the amended statements instantiated on the escape key
(a no-op that stays pending) and on a character key (resolving back to
idle). -/
theorem claim_C4_witness :
    (KeyCode.esc.is_char = false ∧
      (InputManager.handle_key
          ⟨.awaitingTarget .f none, BoundedQueue.new KeyEvent EVENT_HISTORY_LEN,
            BoundedQueue.new Motion MOTION_HISTORY_LEN⟩
          ⟨.esc, KeyModifiers.NONE⟩).1 = UserAction.noop) ∧
    (InputManager.handle_key
        ⟨.awaitingTarget .f none, BoundedQueue.new KeyEvent EVENT_HISTORY_LEN,
          BoundedQueue.new Motion MOTION_HISTORY_LEN⟩
        ⟨.char 'x', KeyModifiers.NONE⟩).2.state = InputState.idle :=
  ⟨⟨by decide,
    (claim_C4.1 .f none (BoundedQueue.new KeyEvent EVENT_HISTORY_LEN)
      (BoundedQueue.new Motion MOTION_HISTORY_LEN) ⟨.esc, KeyModifiers.NONE⟩ (by decide)).1⟩,
   claim_C4.2 .f none (BoundedQueue.new KeyEvent EVENT_HISTORY_LEN)
     (BoundedQueue.new Motion MOTION_HISTORY_LEN) 'x' KeyModifiers.NONE⟩

/-- Scenario buffer for the sticky-column property: a 10-column line, a
3-column line, and the 7-column starting line.  `Motion::apply` routes
`Down` through a backward line step, so successive `Down`s from row 2
land on rows 1 and 0. -/
def c8_buffer : Buffer :=
  ⟨["abcdefghij".toList, "abc".toList, "0123456".toList]⟩

/-- Scenario start: row 2, column 4, no remembered target column. -/
def c8_start : Cursor :=
  ⟨⟨2, 4⟩, ⟨none, BoundedQueue.new (Nat × Position) 16⟩⟩

/-- C8 (confirmed): after a vertical motion the cursor's column is
`min(remembered_target_column, new_line_length)` when a target column is
remembered (note `new_line_length` itself, not `length - 1`, so the
column can rest one past the end), and is the raw line-step column when
none is remembered, the remembered target staying untouched; after any
non-vertical motion the position is exactly the motion's result and the
target column is set to its column.  The concrete conjuncts replay the
spec's scenario: Right to column 5, then a vertical step onto the
3-column line (column forced to min(5,3) = 3), then a vertical step onto
the 10-column line, restoring column 5. -/
theorem claim_C8 :
    (∀ (b : Buffer) (m : Motion) (count : Option Nat) (now : Nat) (cur cur1 : Cursor),
      m.is_vertical = true → cur.apply_motion b m count now = some cur1 →
        (∀ t, cur.memory.target_col = some t →
          cur1.position.col = min t (b.get_line_len cur1.position.row)) ∧
        (cur.memory.target_col = none →
          m.apply b cur.position (count.getD 1) = some cur1.position) ∧
        cur1.memory.target_col = cur.memory.target_col) ∧
    (∀ (b : Buffer) (m : Motion) (count : Option Nat) (now : Nat) (cur cur1 : Cursor),
      m.is_vertical = false → cur.apply_motion b m count now = some cur1 →
        m.apply b cur.position (count.getD 1) = some cur1.position ∧
        cur1.memory.target_col = some cur1.position.col) ∧
    ((c8_start.apply_motion c8_buffer .right none 0).bind
        (fun c1 => c1.apply_motion c8_buffer .down none 1)).map Cursor.position =
      some ⟨1, 3⟩ ∧
    (((c8_start.apply_motion c8_buffer .right none 0).bind
        (fun c1 => c1.apply_motion c8_buffer .down none 1)).bind
        (fun c2 => c2.apply_motion c8_buffer .down none 2)).map Cursor.position =
      some ⟨0, 5⟩ := by
  refine ⟨?_, ?_, by decide, by decide⟩
  · intro b m count now cur cur1 hv h
    rw [Cursor.apply_motion] at h
    dsimp only at h
    cases happ : m.apply b cur.position (count.getD 1) with
    | none => rw [happ] at h; exact Option.noConfusion h
    | some p1 =>
      rw [happ] at h
      dsimp only at h
      split at h
      · injection h with h1
        subst h1
        refine ⟨?_, ?_, rfl⟩
        · intro t ht
          rw [ht]
        · intro ht
          simp [ht, happ]
      · rename_i hnv
        rw [hv] at hnv
        exact absurd rfl hnv
  · intro b m count now cur cur1 hv h
    rw [Cursor.apply_motion] at h
    dsimp only at h
    cases happ : m.apply b cur.position (count.getD 1) with
    | none => rw [happ] at h; exact Option.noConfusion h
    | some p1 =>
      rw [happ] at h
      dsimp only at h
      split at h
      · rename_i hisv
        rw [hv] at hisv
        exact absurd hisv (by simp)
      · injection h with h1
        subst h1
        exact ⟨by simp [happ], rfl⟩

/-- History after the scenario's first (horizontal) motion. -/
def c8_w_hist : BoundedQueue (Nat × Position) :=
  (BoundedQueue.new (Nat × Position) 16).push (0, ⟨2, 4⟩)

/-- Cursor after moving Right to column 5 with target column 5. -/
def c8_w_cur : Cursor := ⟨⟨2, 5⟩, ⟨some 5, c8_w_hist⟩⟩

/-- Cursor after the following vertical motion onto the 3-column line:
the raw step lands at column 2, the sticky column forces min(5,3) = 3. -/
def c8_w_cur1 : Cursor := ⟨⟨1, 3⟩, ⟨some 5, c8_w_hist.push (1, ⟨2, 5⟩)⟩⟩

/-- C8 witness: the vertical branch of the sticky-column property
instantiated on the scenario's first Down step. -/
theorem claim_C8_witness :
    Motion.is_vertical .down = true ∧
    Cursor.apply_motion c8_w_cur c8_buffer .down none 1 = some c8_w_cur1 ∧
    c8_w_cur1.position.col = min 5 (c8_buffer.get_line_len c8_w_cur1.position.row) :=
  ⟨by decide, by decide,
   (claim_C8.1 c8_buffer .down none 1 c8_w_cur c8_w_cur1 (by decide) (by decide)).1 5 rfl⟩

/-- Concrete evaluation: searching a two-character line for an absent
character fails and leaves the position unchanged. -/
theorem c10_jump_eval :
    Position.jump_to_char ⟨0, 0⟩ ⟨[['a', 'b']]⟩ 'z' .forward = (false, ⟨0, 0⟩) := by
  rw [Position.jump_to_char, Position.find_char]
  rw [find_char_loop_next ⟨[['a', 'b']]⟩ 'z' .forward ⟨0, 0⟩ ⟨0, 1⟩ (by decide) (by decide)]
  rw [find_char_loop_fail ⟨[['a', 'b']]⟩ 'z' .forward ⟨0, 1⟩ ⟨0, 1⟩ (by decide)]

/-- Concrete evaluation: the till variant on the same failing search. -/
theorem c10_jumpb_eval :
    Position.jump_before_char ⟨0, 0⟩ ⟨[['a', 'b']]⟩ 'z' .forward = (false, ⟨0, 0⟩) := by
  rw [Position.jump_before_char, Position.find_char]
  rw [find_char_loop_next ⟨[['a', 'b']]⟩ 'z' .forward ⟨0, 0⟩ ⟨0, 1⟩ (by decide) (by decide)]
  rw [find_char_loop_fail ⟨[['a', 'b']]⟩ 'z' .forward ⟨0, 1⟩ ⟨0, 1⟩ (by decide)]

/-- C10 (confirmed): whenever `step_char`, `step_line`, `jump_to_char`
or `jump_before_char` reports failure, the position it returns is
exactly the one it was called with — no partial progress is committed,
even though the jumps may have traversed the buffer searching.  The
final conjunct shows the stated exception is real: on the line "a " the
skip-spaces step fails after having already advanced onto the trailing
space, keeping partial progress. -/
theorem claim_C10 :
    (∀ (b : Buffer) (d : Direction) (p q : Position),
      p.step_char b d = (false, q) → q = p) ∧
    (∀ (b : Buffer) (d : Direction) (p q : Position),
      p.step_line b d = some (false, q) → q = p) ∧
    (∀ (b : Buffer) (tgt : Char) (d : Direction) (p q : Position),
      p.jump_to_char b tgt d = (false, q) → q = p) ∧
    (∀ (b : Buffer) (tgt : Char) (d : Direction) (p q : Position),
      p.jump_before_char b tgt d = (false, q) → q = p) ∧
    (Position.step_char_skip_spaces ⟨0, 0⟩ ⟨[['a', ' ']]⟩ .forward = (false, ⟨0, 1⟩) ∧
      (⟨0, 1⟩ : Position) ≠ (⟨0, 0⟩ : Position)) := by
  refine ⟨step_char_fail_eq, step_line_fail_eq, ?_, ?_, ?_, by decide⟩
  · intro b tgt d p q h
    rw [Position.jump_to_char] at h
    cases hf : p.find_char b tgt d with
    | some np =>
      rw [hf] at h
      simp at h
    | none =>
      rw [hf] at h
      have := congrArg Prod.snd h
      simpa using this.symm
  · intro b tgt d p q h
    rw [Position.jump_before_char] at h
    cases hf : p.find_char b tgt d with
    | some np =>
      rw [hf] at h
      dsimp only at h
      cases hs : np.step_char b d.opposite with
      | mk ok stepped =>
        rw [hs] at h
        cases ok with
        | false =>
          dsimp only at h
          have := congrArg Prod.snd h
          simpa using this.symm
        | true =>
          dsimp only at h
          simp at h
    | none =>
      rw [hf] at h
      have := congrArg Prod.snd h
      simpa using this.symm
  · have h1 : Position.step_char ⟨0, 0⟩ ⟨[['a', ' ']]⟩ .forward = (true, ⟨0, 1⟩) := by decide
    rw [Position.step_char_skip_spaces, h1]
    dsimp only
    rw [skip_spaces_loop_fail ⟨[['a', ' ']]⟩ .forward ⟨0, 1⟩ ⟨0, 1⟩ (by decide) (by decide)]

/-- C10 witness: each primitive applied at a concrete failing input,
with the returned position equal to the original one. -/
theorem claim_C10_witness :
    (Position.step_char ⟨0, 0⟩ ⟨[['a']]⟩ .backward = (false, ⟨0, 0⟩) ∧
      (⟨0, 0⟩ : Position) = ⟨0, 0⟩) ∧
    (Position.step_line ⟨0, 3⟩ ⟨[['a']]⟩ .forward = some (false, ⟨0, 3⟩) ∧
      (⟨0, 3⟩ : Position) = ⟨0, 3⟩) ∧
    (Position.jump_to_char ⟨0, 0⟩ ⟨[['a', 'b']]⟩ 'z' .forward = (false, ⟨0, 0⟩) ∧
      (⟨0, 0⟩ : Position) = ⟨0, 0⟩) ∧
    (Position.jump_before_char ⟨0, 0⟩ ⟨[['a', 'b']]⟩ 'z' .forward = (false, ⟨0, 0⟩) ∧
      (⟨0, 0⟩ : Position) = ⟨0, 0⟩) :=
  ⟨⟨by decide, claim_C10.1 ⟨[['a']]⟩ .backward ⟨0, 0⟩ ⟨0, 0⟩ (by decide)⟩,
   ⟨by decide, claim_C10.2.1 ⟨[['a']]⟩ .forward ⟨0, 3⟩ ⟨0, 3⟩ (by decide)⟩,
   ⟨c10_jump_eval, claim_C10.2.2.1 ⟨[['a', 'b']]⟩ 'z' .forward ⟨0, 0⟩ ⟨0, 0⟩ c10_jump_eval⟩,
   ⟨c10_jumpb_eval, claim_C10.2.2.2.1 ⟨[['a', 'b']]⟩ 'z' .forward ⟨0, 0⟩ ⟨0, 0⟩ c10_jumpb_eval⟩⟩

/-- A skip loop that ends in success stands on a non-space (possibly an
empty line or past the buffer, where `is_space` is false as well). -/
theorem skip_spaces_loop_true_not_space (b : Buffer) (d : Direction) (p q : Position)
    (h : skip_spaces_loop b d p = (true, q)) : b.is_space q = false := by
  induction p using skip_spaces_loop.induct b d with
  | case1 p hsp p2 hs =>
    rw [skip_spaces_loop_fail b d p p2 hsp hs] at h
    simp at h
  | case2 p hsp p1 hs ih =>
    rw [skip_spaces_loop_step b d p p1 hsp hs] at h
    exact ih h
  | case3 p hsp =>
    rw [skip_spaces_loop_stop b d p (by simpa using hsp)] at h
    have hq := congrArg Prod.snd h
    simp at hq
    rw [← hq]
    simpa using hsp

/-- A skip loop that ends in failure stops on a whitespace character
from which the next step fails. -/
theorem skip_spaces_loop_false_spec (b : Buffer) (d : Direction) (p q : Position)
    (h : skip_spaces_loop b d p = (false, q)) :
    b.is_space q = true ∧ q.step_char b d = (false, q) := by
  induction p using skip_spaces_loop.induct b d with
  | case1 p hsp p2 hs =>
    rw [skip_spaces_loop_fail b d p p2 hsp hs] at h
    have hq := congrArg Prod.snd h
    simp at hq
    have hp2 : p2 = p := step_char_fail_eq b d p p2 hs
    subst hq
    subst hp2
    exact ⟨hsp, hs⟩
  | case2 p hsp p1 hs ih =>
    rw [skip_spaces_loop_step b d p p1 hsp hs] at h
    exact ih h
  | case3 p hsp =>
    rw [skip_spaces_loop_stop b d p (by simpa using hsp)] at h
    simp at h

/-- C3 (corrected): `step_char_skip_spaces` does fail whenever the very
first step fails (first conjunct), and whenever it succeeds it has
landed where `is_space` is false — a non-space character, an empty
line, or one past the buffer edge (second conjunct).  But "fails *only*
if the very first step fails" is not true: it also fails when, after a
successful first step, the whitespace run reaches a space from which no
further step is possible (the buffer end); the third conjunct shows
these are the only two failure modes, and the counterexample exhibits
the second one. -/
theorem claim_C3 :
    (∀ (b : Buffer) (d : Direction) (p q : Position),
      p.step_char b d = (false, q) → p.step_char_skip_spaces b d = (false, q)) ∧
    (∀ (b : Buffer) (d : Direction) (p q : Position),
      p.step_char_skip_spaces b d = (true, q) → b.is_space q = false) ∧
    (∀ (b : Buffer) (d : Direction) (p q : Position),
      p.step_char_skip_spaces b d = (false, q) →
        p.step_char b d = (false, q) ∨
          (b.is_space q = true ∧ q.step_char b d = (false, q))) := by
  refine ⟨?_, ?_, ?_⟩
  · intro b d p q h
    rw [Position.step_char_skip_spaces, h]
  · intro b d p q h
    rw [Position.step_char_skip_spaces] at h
    cases hs : p.step_char b d with
    | mk ok p1 =>
      rw [hs] at h
      cases ok with
      | false => simp at h
      | true =>
        dsimp only at h
        exact skip_spaces_loop_true_not_space b d p1 q h
  · intro b d p q h
    rw [Position.step_char_skip_spaces] at h
    cases hs : p.step_char b d with
    | mk ok p1 =>
      rw [hs] at h
      cases ok with
      | false =>
        left
        dsimp only at h
        have hq := congrArg Prod.snd h
        simp at hq
        rw [hq]
      | true =>
        right
        dsimp only at h
        exact skip_spaces_loop_false_spec b d p1 q h

/-- C3 counterexample: on the line "a " the first forward step from the
start succeeds (landing on the trailing space), yet the whole
skip-spaces operation returns false — contradicting "whenever the first
step succeeds it returns true". -/
theorem claim_C3_counterexample :
    Position.step_char ⟨0, 0⟩ ⟨[['a', ' ']]⟩ .forward = (true, ⟨0, 1⟩) ∧
      (Position.step_char_skip_spaces ⟨0, 0⟩ ⟨[['a', ' ']]⟩ .forward).1 = false := by
  constructor
  · decide
  · rw [Position.step_char_skip_spaces,
      show Position.step_char ⟨0, 0⟩ ⟨[['a', ' ']]⟩ .forward = (true, ⟨0, 1⟩) from by decide]
    dsimp only
    rw [skip_spaces_loop_fail ⟨[['a', ' ']]⟩ .forward ⟨0, 1⟩ ⟨0, 1⟩ (by decide) (by decide)]

/-- Concrete evaluation for the C3 witness: a skip step with no spaces
in the way succeeds and lands on the next character. -/
theorem c3_skip_eval :
    Position.step_char_skip_spaces ⟨0, 0⟩ ⟨[['a', 'b']]⟩ .forward = (true, ⟨0, 1⟩) := by
  rw [Position.step_char_skip_spaces,
    show Position.step_char ⟨0, 0⟩ ⟨[['a', 'b']]⟩ .forward = (true, ⟨0, 1⟩) from by decide]
  dsimp only
  rw [skip_spaces_loop_stop ⟨[['a', 'b']]⟩ .forward ⟨0, 1⟩ (by decide)]

/-- C3 witness: the amended statements at concrete inputs — a failing
first step propagates its failure, and a successful skip lands on a
non-space. -/
theorem claim_C3_witness :
    (Position.step_char ⟨0, 0⟩ ⟨[['a']]⟩ .backward = (false, ⟨0, 0⟩) ∧
      Position.step_char_skip_spaces ⟨0, 0⟩ ⟨[['a']]⟩ .backward = (false, ⟨0, 0⟩)) ∧
    (Position.step_char_skip_spaces ⟨0, 0⟩ ⟨[['a', 'b']]⟩ .forward = (true, ⟨0, 1⟩) ∧
      Buffer.is_space ⟨[['a', 'b']]⟩ ⟨0, 1⟩ = false) :=
  ⟨⟨by decide, claim_C3.1 ⟨[['a']]⟩ .backward ⟨0, 0⟩ ⟨0, 0⟩ (by decide)⟩,
   ⟨c3_skip_eval, claim_C3.2.1 ⟨[['a', 'b']]⟩ .forward ⟨0, 0⟩ ⟨0, 1⟩ c3_skip_eval⟩⟩

/-- Whether the character at an index satisfies a class predicate; an
out-of-range index satisfies none. -/
def cls_at (cls : Char → Bool) (chars : List Char) (i : Nat) : Bool :=
  match chars[i]? with
  | some c => cls c
  | none => false

/-- A word character is never whitespace. -/
theorem word_not_ws (c : Char) (h : is_word_char c = true) :
    rust_is_whitespace c = false := by
  simp [is_word_char, is_alphanumeric] at h
  simp [rust_is_whitespace]
  rcases h with h | h
  · omega
  · rw [h]
    decide

/-- A punctuation-run character is neither whitespace nor a word
character. -/
theorem punct_spec (c : Char) (h : is_punct_char c = true) :
    rust_is_whitespace c = false ∧ is_word_char c = false := by
  rw [is_punct_char] at h
  constructor
  · cases hw : rust_is_whitespace c
    · rfl
    · rw [hw] at h
      simp at h
  · cases hw : is_word_char c
    · rfl
    · rw [hw] at h
      simp at h

theorem cls_at_lt (cls : Char → Bool) (chars : List Char) (i : Nat)
    (h : cls_at cls chars i = true) : i < chars.length := by
  rw [cls_at] at h
  cases hc : chars[i]? with
  | none => rw [hc] at h; simp at h
  | some c =>
    by_contra hge
    rw [List.getElem?_eq_none (by omega)] at hc
    exact Option.noConfusion hc

/-- The backward scan moves past an index whose predecessor-side
character is in the class. -/
theorem scan_start_step (cls : Char → Bool) (chars : List Char) (s : Nat)
    (h : cls_at cls chars s = true) :
    scan_start cls chars (s + 1) = scan_start cls chars s := by
  rw [cls_at] at h
  cases hc : chars[s]? with
  | none => rw [hc] at h; simp at h
  | some c =>
    rw [hc] at h
    dsimp only at h
    rw [scan_start, hc]
    dsimp only
    rw [if_pos h]

/-- The backward scan stops at an index whose predecessor-side
character is not in the class. -/
theorem scan_start_stop (cls : Char → Bool) (chars : List Char) (s : Nat)
    (h : cls_at cls chars s = false) :
    scan_start cls chars (s + 1) = s + 1 := by
  rw [cls_at] at h
  cases hc : chars[s]? with
  | none => rw [scan_start, hc]
  | some c =>
    rw [hc] at h
    dsimp only at h
    rw [scan_start, hc]
    dsimp only
    rw [if_neg (by simp [h])]

theorem scan_start_le (cls : Char → Bool) (chars : List Char) :
    ∀ col, scan_start cls chars col ≤ col := by
  intro col
  induction col with
  | zero => exact Nat.le_refl 0
  | succ s ih =>
    rw [scan_start]
    cases hc : chars[s]? with
    | none => exact Nat.le_refl _
    | some c =>
      dsimp only
      by_cases hcl : cls c = true
      · rw [if_pos hcl]
        omega
      · rw [if_neg hcl]

theorem scan_start_range (cls : Char → Bool) (chars : List Char) :
    ∀ col i, scan_start cls chars col ≤ i → i < col → cls_at cls chars i = true := by
  intro col
  induction col with
  | zero => intro i _ h2; omega
  | succ s ih =>
    intro i h1 h2
    cases hca : cls_at cls chars s with
    | true =>
      rw [scan_start_step cls chars s hca] at h1
      by_cases hi : i = s
      · rw [hi]
        exact hca
      · exact ih i h1 (by omega)
    | false =>
      rw [scan_start_stop cls chars s hca] at h1
      omega

theorem scan_start_stop_cond (cls : Char → Bool) (chars : List Char) :
    ∀ col, scan_start cls chars col = 0 ∨
      cls_at cls chars (scan_start cls chars col - 1) = false := by
  intro col
  induction col with
  | zero => exact Or.inl rfl
  | succ s ih =>
    cases hca : cls_at cls chars s with
    | true => rw [scan_start_step cls chars s hca]; exact ih
    | false =>
      rw [scan_start_stop cls chars s hca]
      right
      simpa using hca

/-- The backward scan is a projection: rescanning from its own result
changes nothing. -/
theorem scan_start_fix (cls : Char → Bool) (chars : List Char) (col : Nat) :
    scan_start cls chars (scan_start cls chars col) = scan_start cls chars col := by
  rcases scan_start_stop_cond cls chars col with h | h
  · rw [h]
    rfl
  · cases hs : scan_start cls chars col with
    | zero => rfl
    | succ t =>
      rw [hs] at h
      simp at h
      exact scan_start_stop cls chars t h

/-- Rescanning backward from anywhere inside an all-in-class stretch
gives the same result as from its left end. -/
theorem scan_start_chain (cls : Char → Bool) (chars : List Char) :
    ∀ (d a : Nat), (∀ i, a ≤ i → i < a + d → cls_at cls chars i = true) →
      scan_start cls chars (a + d) = scan_start cls chars a := by
  intro d
  induction d with
  | zero => intro a _; rfl
  | succ d ih =>
    intro a hrange
    have h1 : a + (d + 1) = (a + d) + 1 := by omega
    rw [h1, scan_start_step cls chars (a + d) (hrange (a + d) (by omega) (by omega))]
    exact ih a (fun i hi1 hi2 => hrange i hi1 (by omega))

/-- The forward scan stops when the next character is out of range or
out of class. -/
theorem scan_end_stop (cls : Char → Bool) (chars : List Char) (e : Nat)
    (h : cls_at cls chars (e + 1) = false) : scan_end cls chars e = e := by
  rw [scan_end]
  cases hk : chars.length - e with
  | zero => rfl
  | succ k =>
    rw [scan_end_from]
    rw [cls_at] at h
    cases hc : chars[e + 1]? with
    | none => rfl
    | some c =>
      rw [hc] at h
      dsimp only at h
      dsimp only
      rw [if_neg (by simp [h])]

/-- The forward scan moves past an in-class successor character. -/
theorem scan_end_step (cls : Char → Bool) (chars : List Char) (e : Nat)
    (h : cls_at cls chars (e + 1) = true) :
    scan_end cls chars e = scan_end cls chars (e + 1) := by
  have hlt : e + 1 < chars.length := cls_at_lt cls chars (e + 1) h
  have hk : chars.length - e = (chars.length - (e + 1)) + 1 := by omega
  rw [cls_at] at h
  cases hc : chars[e + 1]? with
  | none => rw [hc] at h; simp at h
  | some c =>
    rw [hc] at h
    dsimp only at h
    rw [scan_end, hk, scan_end_from, hc]
    dsimp only
    rw [if_pos h]
    rfl

/-- The forward scan's result: it only moves forward, everything
strictly between the start and the result is in class, and the
character after the result is not (or is out of range). -/
theorem scan_end_spec (cls : Char → Bool) (chars : List Char) :
    ∀ (k e : Nat), chars.length - e = k →
      e ≤ scan_end cls chars e ∧
        (∀ i, e < i → i ≤ scan_end cls chars e → cls_at cls chars i = true) ∧
        cls_at cls chars (scan_end cls chars e + 1) = false := by
  intro k
  induction k with
  | zero =>
    intro e hk
    have hstop : cls_at cls chars (e + 1) = false := by
      rw [cls_at, List.getElem?_eq_none (by omega)]
    rw [scan_end_stop cls chars e hstop]
    exact ⟨Nat.le_refl e, by intro i h1 h2; omega, hstop⟩
  | succ k ih =>
    intro e hk
    cases hca : cls_at cls chars (e + 1) with
    | false =>
      rw [scan_end_stop cls chars e hca]
      exact ⟨Nat.le_refl e, by intro i h1 h2; omega, hca⟩
    | true =>
      rw [scan_end_step cls chars e hca]
      obtain ⟨ha, hb, hc2⟩ := ih (e + 1) (by omega)
      refine ⟨by omega, ?_, hc2⟩
      intro i h1 h2
      by_cases hi : i = e + 1
      · rw [hi]
        exact hca
      · exact hb i (by omega) h2

/-- The forward scan is a projection: rescanning from its own result
changes nothing. -/
theorem scan_end_fix (cls : Char → Bool) (chars : List Char) (e : Nat) :
    scan_end cls chars (scan_end cls chars e) = scan_end cls chars e :=
  scan_end_stop cls chars _ (scan_end_spec cls chars _ e rfl).2.2

/-- Rescanning forward from anywhere inside an all-in-class stretch
gives the same result as from its right end. -/
theorem scan_end_chain (cls : Char → Bool) (chars : List Char) :
    ∀ (d a : Nat), (∀ i, a < i → i ≤ a + d → cls_at cls chars i = true) →
      scan_end cls chars a = scan_end cls chars (a + d) := by
  intro d
  induction d with
  | zero => intro a _; rfl
  | succ d ih =>
    intro a hrange
    rw [scan_end_step cls chars a (hrange (a + 1) (by omega) (by omega))]
    have h1 : a + (d + 1) = (a + 1) + d := by omega
    rw [h1]
    exact ih (a + 1) (fun i hi1 hi2 => hrange i (by omega) (by omega))

theorem cls_at_some (cls : Char → Bool) (chars : List Char) (i : Nat)
    (h : cls_at cls chars i = true) : ∃ c, chars[i]? = some c ∧ cls c = true := by
  rw [cls_at] at h
  cases hc : chars[i]? with
  | none => rw [hc] at h; simp at h
  | some c =>
    rw [hc] at h
    dsimp only at h
    exact ⟨c, rfl, h⟩

/-- Evaluation of `word_boundaries` on a word character: both scans run
with the word-character class. -/
theorem wb_eval_word (chars : List Char) (i : Nat) (ci : Char)
    (hci : chars[i]? = some ci) (hlt : i < chars.length)
    (hws : rust_is_whitespace ci = false) (hw : is_word_char ci = true) :
    word_boundaries chars i =
      some (scan_start is_word_char chars i, scan_end is_word_char chars i) := by
  rw [word_boundaries, if_neg (by push_neg; omega)]
  rw [hci]
  dsimp only
  simp [hws, hw]

/-- Evaluation of `word_boundaries` on a punctuation-run character:
both scans run with the punctuation class. -/
theorem wb_eval_punct (chars : List Char) (i : Nat) (ci : Char)
    (hci : chars[i]? = some ci) (hlt : i < chars.length)
    (hws : rust_is_whitespace ci = false) (hw : is_word_char ci = false) :
    word_boundaries chars i =
      some (scan_start is_punct_char chars i, scan_end is_punct_char chars i) := by
  rw [word_boundaries, if_neg (by push_neg; omega)]
  rw [hci]
  dsimp only
  simp [hws, hw]

/-- Idempotence core, shared by the two character classes: rescanning
from either boundary of a maximal run reproduces the same pair. -/
theorem wb_branch_core (P : Char → Bool) (chars : List Char) (col : Nat) (c0 : Char)
    (hc0 : chars[col]? = some c0) (hcol : col < chars.length) (hP0 : P c0 = true)
    (hwb : ∀ i ci, chars[i]? = some ci → i < chars.length → P ci = true →
      word_boundaries chars i = some (scan_start P chars i, scan_end P chars i)) :
    word_boundaries chars (scan_start P chars col) =
      some (scan_start P chars col, scan_end P chars col) ∧
    word_boundaries chars (scan_end P chars col) =
      some (scan_start P chars col, scan_end P chars col) := by
  have hsle : scan_start P chars col ≤ col := scan_start_le P chars col
  obtain ⟨hege, hrangeE, hstopE⟩ := scan_end_spec P chars (chars.length - col) col rfl
  have hall : ∀ i, scan_start P chars col ≤ i → i ≤ scan_end P chars col →
      cls_at P chars i = true := by
    intro i h1 h2
    rcases Nat.lt_trichotomy i col with hic | hic | hic
    · exact scan_start_range P chars col i h1 hic
    · rw [hic, cls_at, hc0]
      exact hP0
    · exact hrangeE i hic h2
  have hclsS : cls_at P chars (scan_start P chars col) = true :=
    hall _ (Nat.le_refl _) (by omega)
  have hclsE : cls_at P chars (scan_end P chars col) = true :=
    hall _ (by omega) (Nat.le_refl _)
  have hfixS : scan_start P chars (scan_start P chars col) = scan_start P chars col :=
    scan_start_fix P chars col
  have hendS : scan_end P chars (scan_start P chars col) = scan_end P chars col := by
    have hchain := scan_end_chain P chars (col - scan_start P chars col)
      (scan_start P chars col) (by
        intro i hi1 hi2
        exact hall i (by omega) (by omega))
    have harith : scan_start P chars col + (col - scan_start P chars col) = col := by omega
    rw [harith] at hchain
    exact hchain
  have hstartE : scan_start P chars (scan_end P chars col) = scan_start P chars col := by
    have hchain := scan_start_chain P chars (scan_end P chars col - col) col (by
      intro i hi1 hi2
      exact hall i (by omega) (by omega))
    have harith : col + (scan_end P chars col - col) = scan_end P chars col := by omega
    rw [harith] at hchain
    exact hchain
  have hfixE : scan_end P chars (scan_end P chars col) = scan_end P chars col :=
    scan_end_fix P chars col
  constructor
  · obtain ⟨cs, hcs, hPcs⟩ := cls_at_some P chars _ hclsS
    rw [hwb _ cs hcs (by omega) hPcs, hfixS, hendS]
  · obtain ⟨ce, hce, hPce⟩ := cls_at_some P chars _ hclsE
    rw [hwb _ ce hce (cls_at_lt P chars _ hclsE) hPce, hstartE, hfixE]

/-- C9 (confirmed): `word_boundaries` is idempotent — whenever it
returns a run `(s, e)`, querying it again at `s` or at `e` returns the
same run. -/
theorem claim_C9 :
    ∀ (chars : List Char) (col s e : Nat),
      word_boundaries chars col = some (s, e) →
        word_boundaries chars s = some (s, e) ∧
          word_boundaries chars e = some (s, e) := by
  intro chars col s e h
  rw [word_boundaries] at h
  split at h
  · exact Option.noConfusion h
  · rename_i hguard
    have hcol : col < chars.length := by
      push_neg at hguard
      omega
    cases hc0 : chars[col]? with
    | none =>
      rw [hc0] at h
      exact Option.noConfusion h
    | some c0 =>
      rw [hc0] at h
      dsimp only at h
      split at h
      · exact Option.noConfusion h
      · rename_i hws
        split at h
        · rename_i hword
          injection h with h1
          have hs : scan_start is_word_char chars col = s := congrArg Prod.fst h1
          have he : scan_end is_word_char chars col = e := congrArg Prod.snd h1
          rw [← hs, ← he]
          exact wb_branch_core is_word_char chars col c0 hc0 hcol hword
            (fun i ci hci hlt hP => wb_eval_word chars i ci hci hlt (word_not_ws ci hP) hP)
        · rename_i hword
          injection h with h1
          have hs : scan_start is_punct_char chars col = s := congrArg Prod.fst h1
          have he : scan_end is_punct_char chars col = e := congrArg Prod.snd h1
          have hP0 : is_punct_char c0 = true := by
            rw [is_punct_char]
            simp at hws hword
            simp [hws, hword]
          rw [← hs, ← he]
          exact wb_branch_core is_punct_char chars col c0 hc0 hcol hP0
            (fun i ci hci hlt hP =>
              wb_eval_punct chars i ci hci hlt (punct_spec ci hP).1 (punct_spec ci hP).2)

/-- C9 witness: the spec's own example line — the run around column 0
is (0,4) and requerying at both boundaries reproduces it. -/
theorem claim_C9_witness :
    word_boundaries "Hello, world! This is a test.".toList 0 = some (0, 4) ∧
      word_boundaries "Hello, world! This is a test.".toList 4 = some (0, 4) :=
  ⟨by decide,
   (claim_C9 "Hello, world! This is a test.".toList 0 0 4 (by decide)).2⟩
